import Mathlib

/-!
Verification of the shared-library renaming and dependency-closure subsystem
of scripts/bootstrap.py (class Bootstrap).

Python strings and byte strings are modelled as List Char (the data handled by
the script is plain ASCII: sonames, readelf output lines, embedded string-table
entries).  Python functions that can raise are modelled with PyResult; a Python
function that falls off the end returns None, modelled as Option.none inside a
successful PyResult.
-/

namespace WpeBootstrap

/-- Exceptions the modelled Python code can raise. -/
inductive PyExn : Type
  | assertionError
  | typeError
deriving DecidableEq

/-- Result of running a Python fragment: a value, or a raised exception. -/
inductive PyResult (α : Type) : Type
  | ok (a : α)
  | exn (e : PyExn)
deriving DecidableEq

/-- Python str.split with separator, specialised to the dot separator used by
__adjust_soname: s.split(sep) always returns at least one (possibly empty)
chunk, and chunks between consecutive separators are empty. -/
def splitOnDot : List Char → List (List Char)
  | [] => [[]]
  | c :: cs =>
    if c = '.' then [] :: splitOnDot cs
    else
      match splitOnDot cs with
      | [] => [[c]]
      | g :: gs => (c :: g) :: gs

/-- Inverse of splitOnDot: interleave the chunks with dots, as a Python
sep.join(chunks) does. -/
def joinDots : List (List Char) → List Char
  | [] => []
  | [g] => g
  | g :: gs => g ++ '.' :: joinDots gs

theorem splitOnDot_ne_nil (s : List Char) : splitOnDot s ≠ [] := by
  cases s with
  | nil => simp [splitOnDot]
  | cons c cs =>
    simp only [splitOnDot]
    split
    · simp
    · cases h : splitOnDot cs <;> simp

theorem joinDots_cons (g : List Char) (gs : List (List Char)) (h : gs ≠ []) :
    joinDots (g :: gs) = g ++ '.' :: joinDots gs := by
  cases gs with
  | nil => exact absurd rfl h
  | cons g2 gs2 => rfl

theorem joinDots_splitOnDot (s : List Char) : joinDots (splitOnDot s) = s := by
  induction s with
  | nil => rfl
  | cons c cs ih =>
    simp only [splitOnDot]
    by_cases hc : c = '.'
    · rw [if_pos hc, joinDots_cons _ _ (splitOnDot_ne_nil cs), ih, hc]
      rfl
    · rw [if_neg hc]
      cases hsp : splitOnDot cs with
      | nil => exact absurd hsp (splitOnDot_ne_nil cs)
      | cons g gs =>
        cases gs with
        | nil =>
          have : joinDots [g] = cs := by rw [← hsp, ih]
          simp only [joinDots] at this ⊢
          rw [this]
        | cons g2 gs2 =>
          have h3 : joinDots (g :: g2 :: gs2) = cs := by rw [← hsp, ih]
          rw [joinDots_cons _ _ (by simp)] at h3
          rw [joinDots_cons _ _ (by simp), ← h3]
          simp

/-- Sum of chunk lengths plus the number of chunks equals the joined length
plus one (each of the n chunks is followed by a dot except the last). -/
theorem joinDots_length (gs : List (List Char)) (h : gs ≠ []) :
    (joinDots gs).length + 1 = (gs.map List.length).sum + gs.length := by
  induction gs with
  | nil => exact absurd rfl h
  | cons g gs ih =>
    cases gs with
    | nil => simp [joinDots]
    | cons g2 gs2 =>
      rw [joinDots_cons _ _ (by simp)]
      have := ih (by simp)
      simp only [List.map_cons, List.sum_cons, List.length_cons, List.length_append] at *
      omega

/-- The literal suffix ".so" tested by initial.endswith in __adjust_soname. -/
def dotSO : List Char := ['.', 's', 'o']

/-- The literal segment "so" compared against split[-2] / split[-3]. -/
def soSeg : List Char := ['s', 'o']

/-- Bootstrap.__adjust_soname.  Mirrors the Python exactly:
  if initial.endswith('.so'): return initial
  split = initial.split('.')
  assert len(split) > 2                      -- AssertionError when violated
  if split[-2] == 'so': return '.'.join(split[:-2]) + '_' + split[-1] + '.so'
  elif split[-3] == 'so': return '.'.join(split[:-3]) + '_' + split[-2] + '_' + split[-1] + '.so'
  -- otherwise the function falls off the end and returns None.
Negative indices split[-k] are modelled as getD (length - k); slices
split[:-k] as take (length - k). -/
def adjust_soname (initial : List Char) : PyResult (Option (List Char)) :=
  if dotSO.isSuffixOf initial then .ok (some initial)
  else
    let split := splitOnDot initial
    if 2 < split.length then
      if split.getD (split.length - 2) [] = soSeg then
        .ok (some (joinDots (split.take (split.length - 2)) ++
          '_' :: (split.getD (split.length - 1) [] ++ dotSO)))
      else if split.getD (split.length - 3) [] = soSeg then
        .ok (some (joinDots (split.take (split.length - 3)) ++
          '_' :: (split.getD (split.length - 2) [] ++
            '_' :: (split.getD (split.length - 1) [] ++ dotSO))))
      else .ok none
    else .exn .assertionError

example : adjust_soname ("libfoo.so".data) = .ok (some ("libfoo.so".data)) := by decide
example : adjust_soname ("libfoo.so.1".data) = .ok (some ("libfoo_1.so".data)) := by decide
example : adjust_soname ("libfoo.so.1.2".data) = .ok (some ("libfoo_1_2.so".data)) := by decide
example : adjust_soname ("libfoo.so.1.2.3".data) = .ok none := by decide
example : adjust_soname ("libfoo".data) = .exn .assertionError := by decide
example : adjust_soname ("so.1.2".data) = .ok (some ("_1_2.so".data)) := by decide

/-- Claim C2: the naming transform returns names ending in .so unchanged; with
more than two dot segments and second-to-last segment "so" it returns the
segments before "so" joined with dots, then an underscore, the last segment and
".so"; with third-to-last segment "so" (and second-to-last not "so", the
branches being tried in the order of the code) it returns base_v1_v2.so; in
particular adjust("libfoo.so.1") = "libfoo_1.so" and
adjust("libfoo.so.1.2") = "libfoo_1_2.so". -/
theorem C2_adjust_soname_cases :
    (∀ s : List Char, dotSO.isSuffixOf s = true → adjust_soname s = .ok (some s)) ∧
    (∀ s : List Char, dotSO.isSuffixOf s = false → 2 < (splitOnDot s).length →
      (splitOnDot s).getD ((splitOnDot s).length - 2) [] = soSeg →
      adjust_soname s = .ok (some (joinDots ((splitOnDot s).take ((splitOnDot s).length - 2)) ++
        '_' :: ((splitOnDot s).getD ((splitOnDot s).length - 1) [] ++ dotSO)))) ∧
    (∀ s : List Char, dotSO.isSuffixOf s = false → 2 < (splitOnDot s).length →
      (splitOnDot s).getD ((splitOnDot s).length - 2) [] ≠ soSeg →
      (splitOnDot s).getD ((splitOnDot s).length - 3) [] = soSeg →
      adjust_soname s = .ok (some (joinDots ((splitOnDot s).take ((splitOnDot s).length - 3)) ++
        '_' :: ((splitOnDot s).getD ((splitOnDot s).length - 2) [] ++
          '_' :: ((splitOnDot s).getD ((splitOnDot s).length - 1) [] ++ dotSO))))) ∧
    adjust_soname ("libfoo.so".data) = .ok (some ("libfoo.so".data)) ∧
    adjust_soname ("libfoo.so.1".data) = .ok (some ("libfoo_1.so".data)) ∧
    adjust_soname ("libfoo.so.1.2".data) = .ok (some ("libfoo_1_2.so".data)) := by
  refine ⟨?_, ?_, ?_, by decide, by decide, by decide⟩
  · intro s h1
    simp only [adjust_soname, h1, if_true]
  · intro s h1 h2 h3
    simp only [adjust_soname, h1, Bool.false_eq_true, if_false]
    rw [if_pos h2, if_pos h3]
  · intro s h1 h2 h3 h4
    simp only [adjust_soname, h1, Bool.false_eq_true, if_false]
    rw [if_pos h2, if_neg h3, if_pos h4]

theorem C2_adjust_soname_cases_witness :
    adjust_soname ("libz.so".data) = .ok (some ("libz.so".data)) ∧
    adjust_soname ("liba.so.7".data) =
      .ok (some (joinDots ((splitOnDot ("liba.so.7".data)).take
          ((splitOnDot ("liba.so.7".data)).length - 2)) ++
        '_' :: ((splitOnDot ("liba.so.7".data)).getD
          ((splitOnDot ("liba.so.7".data)).length - 1) [] ++ dotSO))) ∧
    adjust_soname ("libb.so.8.9".data) =
      .ok (some (joinDots ((splitOnDot ("libb.so.8.9".data)).take
          ((splitOnDot ("libb.so.8.9".data)).length - 3)) ++
        '_' :: ((splitOnDot ("libb.so.8.9".data)).getD
          ((splitOnDot ("libb.so.8.9".data)).length - 2) [] ++
          '_' :: ((splitOnDot ("libb.so.8.9".data)).getD
            ((splitOnDot ("libb.so.8.9".data)).length - 1) [] ++ dotSO)))) :=
  ⟨C2_adjust_soname_cases.1 ("libz.so".data) (by decide),
   C2_adjust_soname_cases.2.1 ("liba.so.7".data) (by decide) (by decide) (by decide),
   C2_adjust_soname_cases.2.2.1 ("libb.so.8.9".data) (by decide) (by decide) (by decide)
     (by decide)⟩

/-- Claim C4, counterexample: on "libfoo.so.1.2.3" (three trailing version
components) the transform raises nothing: it returns None (the Python function
falls off the end), so the claim that it fails with an error is false. -/
theorem C4_no_error_counterexample :
    adjust_soname ("libfoo.so.1.2.3".data) = .ok none ∧
    adjust_soname ("libfoo.so.1.2.3".data) ≠ .exn .assertionError ∧
    adjust_soname ("libfoo.so.1.2.3".data) ≠ .exn .typeError := by decide

/-- Claim C4 (amended): for every name that does not end in ".so", splits into
more than two segments, and has neither its second-to-last nor third-to-last
segment equal to "so", the naming transform raises no error and produces no
name: it returns None.  (The run then aborts later, when the None value hits
the file-copy / length-check code of __copy_libs.) -/
theorem C4_unsupported_versioning_returns_none :
    ∀ s : List Char, dotSO.isSuffixOf s = false → 2 < (splitOnDot s).length →
      (splitOnDot s).getD ((splitOnDot s).length - 2) [] ≠ soSeg →
      (splitOnDot s).getD ((splitOnDot s).length - 3) [] ≠ soSeg →
      adjust_soname s = .ok none := by
  intro s h1 h2 h3 h4
  simp only [adjust_soname, h1, Bool.false_eq_true, if_false]
  rw [if_pos h2, if_neg h3, if_neg h4]

theorem C4_unsupported_versioning_returns_none_witness :
    adjust_soname ("libfoo.so.1.2.3".data) = .ok none :=
  C4_unsupported_versioning_returns_none ("libfoo.so.1.2.3".data) (by decide) (by decide)
    (by decide) (by decide)

/-- Decompose a list of length at least two into its prefix and its last two
elements, expressed through getD as the Python negative indices are. -/
theorem drop_sub_two (l : List (List Char)) (h : 2 ≤ l.length) :
    l.drop (l.length - 2) = [l.getD (l.length - 2) [], l.getD (l.length - 1) []] := by
  have h1 : l.length - 2 < l.length := by omega
  have h2 : l.length - 1 < l.length := by omega
  rw [List.drop_eq_getElem_cons h1, show l.length - 2 + 1 = l.length - 1 by omega,
    List.drop_eq_getElem_cons h2, show l.length - 1 + 1 = l.length by omega,
    List.drop_length, List.getD_eq_getElem _ _ h1, List.getD_eq_getElem _ _ h2]

/-- Decompose a list of length at least three into its prefix and its last
three elements. -/
theorem drop_sub_three (l : List (List Char)) (h : 3 ≤ l.length) :
    l.drop (l.length - 3) =
      [l.getD (l.length - 3) [], l.getD (l.length - 2) [], l.getD (l.length - 1) []] := by
  have h1 : l.length - 3 < l.length := by omega
  have h2 : l.length - 2 < l.length := by omega
  have h3 : l.length - 1 < l.length := by omega
  rw [List.drop_eq_getElem_cons h1, show l.length - 3 + 1 = l.length - 2 by omega,
    List.drop_eq_getElem_cons h2, show l.length - 2 + 1 = l.length - 1 by omega,
    List.drop_eq_getElem_cons h3, show l.length - 1 + 1 = l.length by omega,
    List.drop_length, List.getD_eq_getElem _ _ h1, List.getD_eq_getElem _ _ h2,
    List.getD_eq_getElem _ _ h3]

/-- Claim C3 (amended): whenever the naming transform returns a name, the name
has the same length as the input, except in the degenerate case of a name made
of exactly three dot segments whose first segment is "so" (such as "so.1.2"),
where the output is exactly one character longer. -/
theorem C3_adjust_soname_length :
    ∀ s t : List Char, adjust_soname s = .ok (some t) →
      t.length = s.length ∨
        (t.length = s.length + 1 ∧ (splitOnDot s).length = 3 ∧
          (splitOnDot s).getD 0 [] = soSeg) := by
  intro s t h
  have hjs : (joinDots (splitOnDot s)).length = s.length := by rw [joinDots_splitOnDot]
  have hE2 : (joinDots (splitOnDot s)).length + 1 =
      ((splitOnDot s).map List.length).sum + (splitOnDot s).length :=
    joinDots_length _ (splitOnDot_ne_nil s)
  simp only [adjust_soname] at h
  split at h
  · -- name already ends in ".so": returned unchanged
    left
    simp only [PyResult.ok.injEq, Option.some.injEq] at h
    rw [← h]
  · split at h
    case isTrue h2 =>
      split at h
      case isTrue h3 =>
        -- split[-2] == 'so'
        left
        simp only [PyResult.ok.injEq, Option.some.injEq] at h
        set l := splitOnDot s with hl
        have hd : l.drop (l.length - 2) = [l.getD (l.length - 2) [], l.getD (l.length - 1) []] :=
          drop_sub_two l (by omega)
        have htk : l = l.take (l.length - 2) ++ l.drop (l.length - 2) :=
          (List.take_append_drop _ _).symm
        have htkd : (l.take (l.length - 2)).length = l.length - 2 := by
          rw [List.length_take]; omega
        have hne : l.take (l.length - 2) ≠ [] := by
          intro hc; rw [hc] at htkd; simp at htkd; omega
        have hE1 : (joinDots (l.take (l.length - 2))).length + 1 =
            ((l.take (l.length - 2)).map List.length).sum + (l.take (l.length - 2)).length :=
          joinDots_length _ hne
        have hE3 : (l.map List.length).sum =
            ((l.take (l.length - 2)).map List.length).sum +
              (2 + (l.getD (l.length - 1) []).length) := by
          conv_lhs => rw [htk]
          rw [List.map_append, List.sum_append, hd, h3]
          simp [soSeg]
        have hT : t.length = (joinDots (l.take (l.length - 2))).length +
            (1 + ((l.getD (l.length - 1) []).length + 3)) := by
          rw [← h]
          simp only [List.length_append, List.length_cons, List.length_nil, dotSO]
          omega
        omega
      case isFalse h3 =>
        split at h
        case isTrue h4 =>
          -- split[-3] == 'so'
          simp only [PyResult.ok.injEq, Option.some.injEq] at h
          set l := splitOnDot s with hl
          have hd : l.drop (l.length - 3) =
              [l.getD (l.length - 3) [], l.getD (l.length - 2) [], l.getD (l.length - 1) []] :=
            drop_sub_three l (by omega)
          have htk : l = l.take (l.length - 3) ++ l.drop (l.length - 3) :=
            (List.take_append_drop _ _).symm
          have htkd : (l.take (l.length - 3)).length = l.length - 3 := by
            rw [List.length_take]; omega
          have hE3 : (l.map List.length).sum =
              ((l.take (l.length - 3)).map List.length).sum +
                (2 + ((l.getD (l.length - 2) []).length + (l.getD (l.length - 1) []).length)) := by
            conv_lhs => rw [htk]
            rw [List.map_append, List.sum_append, hd, h4]
            simp [soSeg]
          have hT : t.length = (joinDots (l.take (l.length - 3))).length +
              (1 + ((l.getD (l.length - 2) []).length +
                (1 + ((l.getD (l.length - 1) []).length + 3)))) := by
            rw [← h]
            simp only [List.length_append, List.length_cons, List.length_nil, dotSO]
            omega
          by_cases hn3 : l.length = 3
          · -- exactly three segments: the prefix before 'so' is empty and one
            -- separator dot is lost; the output is one character longer
            right
            have h0 : l.take (l.length - 3) = [] := by
              rw [hn3]; rfl
            rw [h0] at hT hE3
            have hg0 : l.getD 0 [] = soSeg := by
              rw [show (0 : Nat) = l.length - 3 by omega]; exact h4
            refine ⟨?_, hn3, hg0⟩
            simp only [joinDots, List.length_nil, List.map_nil, List.sum_nil] at hT hE3
            omega
          · -- four or more segments: length is preserved
            left
            have hne : l.take (l.length - 3) ≠ [] := by
              intro hc; rw [hc] at htkd; simp at htkd; omega
            have hE1 : (joinDots (l.take (l.length - 3))).length + 1 =
                ((l.take (l.length - 3)).map List.length).sum + (l.take (l.length - 3)).length :=
              joinDots_length _ hne
            omega
        case isFalse h4 =>
          exact absurd h (by simp)
    case isFalse h2 =>
      exact absurd h (by simp)

/-- Claim C3, counterexample: "so.1.2" is a supported input (three segments,
third-to-last equal to "so") but the adjusted name "_1_2.so" is one character
longer than the input. -/
theorem C3_length_counterexample :
    adjust_soname ("so.1.2".data) = .ok (some ("_1_2.so".data)) ∧
    ("_1_2.so".data).length ≠ ("so.1.2".data).length := by decide

theorem C3_adjust_soname_length_witness :
    ("libfoo_1.so".data).length = ("libfoo.so.1".data).length ∨
      (("libfoo_1.so".data).length = ("libfoo.so.1".data).length + 1 ∧
        (splitOnDot ("libfoo.so.1".data)).length = 3 ∧
        (splitOnDot ("libfoo.so.1".data)).getD 0 [] = soSeg) :=
  C3_adjust_soname_length ("libfoo.so.1".data) ("libfoo_1.so".data) (by decide)

/-!  The Binary Patcher: Bootstrap.__replace_soname_values reads a library file
and runs, for each registered pair, Python bytes.replace: scan left to right,
replace each leftmost occurrence of the old string and resume scanning after
it (the inserted replacement text is not rescanned).  The fuel argument below
is always the length of the content; it only makes the recursion structural so
that all definitions reduce computationally. -/

def replaceListAux (o a : List Char) : Nat → List Char → List Char
  | _, [] => []
  | 0, s => s
  | fuel + 1, c :: cs =>
    if o.isPrefixOf (c :: cs) && !o.isEmpty then
      a ++ replaceListAux o a fuel ((c :: cs).drop o.length)
    else
      c :: replaceListAux o a fuel cs

/-- Python bytes.replace(o, a) applied to content s.  (For an empty o, Python
would insert a at every gap; the script never registers an empty original —
the readelf regex groups are .+ and the seeded pair is a literal — and this
model leaves the content unchanged in that unreachable case.) -/
def replaceList (o a s : List Char) : List Char :=
  replaceListAux o a s.length s

theorem band_left {x y : Bool} (h : (x && y) = true) : x = true := by
  cases x
  · simp at h
  · rfl

theorem band_right {x y : Bool} (h : (x && y) = true) : y = true := by
  cases y
  · simp at h
  · rfl

theorem replaceListAux_fuel (o a : List Char) :
    ∀ (fuel : Nat) (s : List Char), s.length ≤ fuel →
      replaceListAux o a fuel s = replaceListAux o a s.length s := by
  intro fuel
  induction fuel using Nat.strong_induction_on with
  | _ fuel ih =>
    intro s h
    cases s with
    | nil => cases fuel <;> rfl
    | cons c cs =>
      cases fuel with
      | zero => simp at h
      | succ n =>
        have hcc : (c :: cs).length = cs.length + 1 := List.length_cons c cs
        rw [List.length_cons]
        simp only [replaceListAux]
        by_cases hb : (o.isPrefixOf (c :: cs) && !o.isEmpty) = true
        · rw [if_pos hb, if_pos hb]
          have hone : 1 ≤ o.length := by
            cases o with
            | nil => simp at hb
            | cons _ _ => simp
          have hd : ((c :: cs).drop o.length).length ≤ cs.length := by
            rw [List.length_drop, List.length_cons]
            omega
          rw [ih n (by omega) _ (by omega),
            ih cs.length (by omega) _ (by omega)]
        · rw [if_neg hb, if_neg hb]
          rw [ih n (by omega) cs (by omega),
            ih cs.length (by omega) cs (by omega)]

theorem replaceList_nil (o a : List Char) : replaceList o a [] = [] := rfl

theorem replaceList_cons (o a : List Char) (c : Char) (cs : List Char) :
    replaceList o a (c :: cs) =
      if o.isPrefixOf (c :: cs) && !o.isEmpty then
        a ++ replaceList o a ((c :: cs).drop o.length)
      else
        c :: replaceList o a cs := by
  show replaceListAux o a (c :: cs).length (c :: cs) = _
  rw [List.length_cons]
  simp only [replaceListAux]
  by_cases hb : (o.isPrefixOf (c :: cs) && !o.isEmpty) = true
  · rw [if_pos hb, if_pos hb]
    have hone : 1 ≤ o.length := by
      cases o with
      | nil => simp at hb
      | cons _ _ => simp
    rw [replaceListAux_fuel o a cs.length _
      (by rw [List.length_drop, List.length_cons]; omega)]
    rfl
  · rw [if_neg hb, if_neg hb]
    rfl

/-- bytes.replace with a pattern and replacement of equal length preserves the
content length. -/
theorem replaceList_length (o a : List Char) (hlen : o.length = a.length) (s : List Char) :
    (replaceList o a s).length = s.length := by
  suffices hgen : ∀ (n : Nat) (s : List Char), s.length ≤ n →
      (replaceList o a s).length = s.length from hgen s.length s le_rfl
  intro n
  induction n with
  | zero =>
    intro s h
    have : s = [] := List.eq_nil_of_length_eq_zero (Nat.le_zero.mp h)
    rw [this, replaceList_nil]
  | succ n ih =>
    intro s h
    cases s with
    | nil => rw [replaceList_nil]
    | cons c cs =>
      rw [replaceList_cons]
      have hcc : (c :: cs).length = cs.length + 1 := List.length_cons c cs
      by_cases hb : (o.isPrefixOf (c :: cs) && !o.isEmpty) = true
      · rw [if_pos hb]
        have hpre : o <+: c :: cs :=
          List.isPrefixOf_iff_prefix.mp (band_left hb)
        have hle : o.length ≤ cs.length + 1 := by
          have := hpre.length_le
          rwa [List.length_cons] at this
        have hone : 1 ≤ o.length := by
          cases o with
          | nil => simp at hb
          | cons _ _ => simp
        have hdl : ((c :: cs).drop o.length).length = cs.length + 1 - o.length := by
          rw [List.length_drop, hcc]
        have hih : (replaceList o a ((c :: cs).drop o.length)).length
            = ((c :: cs).drop o.length).length := ih _ (by omega)
        rw [List.length_append, hih, hdl, hcc]
        omega
      · rw [if_neg hb]
        have hih : (replaceList o a cs).length = cs.length := ih cs (by omega)
        rw [List.length_cons, List.length_cons, hih]

/-- bytes.replace is the identity when the pattern does not occur in the
content. -/
theorem replaceList_absent (o a s : List Char) (h : ¬ o <:+: s) :
    replaceList o a s = s := by
  suffices hgen : ∀ (n : Nat) (s : List Char), s.length ≤ n → ¬ o <:+: s →
      replaceList o a s = s from hgen s.length s le_rfl h
  intro n
  induction n with
  | zero =>
    intro s hl _
    have : s = [] := List.eq_nil_of_length_eq_zero (Nat.le_zero.mp hl)
    rw [this, replaceList_nil]
  | succ n ih =>
    intro s hl hno
    cases s with
    | nil => rw [replaceList_nil]
    | cons c cs =>
      rw [replaceList_cons, if_neg, ih cs (by rw [List.length_cons] at hl; omega)
        (fun hc => hno (List.infix_cons hc))]
      intro hb
      exact hno ( List.isPrefixOf_iff_prefix.mp (band_left hb)).isInfix

/-- Core of Bootstrap.__replace_soname_values, file I/O elided: the content
transformation applied to the bytes of one library —
  for pair in self.__soname_replacements:
      contents = contents.replace(bytes(pair[0]), bytes(pair[1])). -/
def replace_soname_values (replacements : List (List Char × List Char))
    (contents : List Char) : List Char :=
  replacements.foldl (fun c p => replaceList p.1 p.2 c) contents

/-- The string o occurs literally in s at byte offset i. -/
def occursAt (o s : List Char) (i : Nat) : Prop :=
  i + o.length ≤ s.length ∧ (s.drop i).take o.length = o

instance (o s : List Char) (i : Nat) : Decidable (occursAt o s i) := by
  unfold occursAt
  infer_instance

example :
    replace_soname_values [("ab".data, "xy".data), ("xa".data, "qq".data)] ("xab".data)
      = "xxy".data := by decide

theorem not_occursAt_nil (o : List Char) (hne : o ≠ []) (i : Nat) : ¬ occursAt o [] i := by
  rintro ⟨h1, _⟩
  have := List.length_pos.mpr hne
  simp only [List.length_nil] at h1
  omega

theorem occursAt_zero_iff (o s : List Char) : occursAt o s 0 ↔ o <+: s := by
  unfold occursAt
  rw [List.drop_zero]
  constructor
  · rintro ⟨h1, h2⟩
    rw [← h2]
    exact List.take_prefix _ _
  · intro h
    exact ⟨by simpa using h.length_le, (List.prefix_iff_eq_take.mp h).symm⟩

theorem occursAt_cons (o : List Char) (c : Char) (cs : List Char) (i : Nat) :
    occursAt o (c :: cs) (i + 1) ↔ occursAt o cs i := by
  unfold occursAt
  rw [List.drop_succ_cons, List.length_cons]
  constructor
  · rintro ⟨h1, h2⟩
    exact ⟨by omega, h2⟩
  · rintro ⟨h1, h2⟩
    exact ⟨by omega, h2⟩

theorem occursAt_drop (o s : List Char) (hne : o ≠ []) (d i : Nat) :
    occursAt o (s.drop d) i ↔ occursAt o s (d + i) := by
  have hol : 0 < o.length := List.length_pos.mpr hne
  unfold occursAt
  rw [List.drop_drop, List.length_drop]
  constructor
  · rintro ⟨h1, h2⟩
    exact ⟨by omega, h2⟩
  · rintro ⟨h1, h2⟩
    exact ⟨by omega, h2⟩

theorem getD_drop (s : List Char) (d m : Nat) (dflt : Char) :
    (s.drop d).getD m dflt = s.getD (d + m) dflt := by
  rcases Nat.lt_or_ge (d + m) s.length with h | h
  · have hm : m < (s.drop d).length := by
      rw [List.length_drop]
      omega
    rw [List.getD_eq_getElem _ _ hm, List.getD_eq_getElem _ _ h]
    exact List.getElem_drop ..
  · have hm : (s.drop d).length ≤ m := by
      rw [List.length_drop]
      omega
    rw [List.getD_eq_default _ _ hm, List.getD_eq_default _ _ h]

/-- Positional description of bytes.replace when the pattern occurrences in
the content are pairwise non-overlapping: every occurrence span carries the
replacement text afterwards, and every position outside all occurrence spans
carries the original byte. -/
theorem replaceList_spec (o a : List Char) (hne : o ≠ []) (hlen : o.length = a.length) :
    ∀ s : List Char,
      (∀ i j, occursAt o s i → occursAt o s j → i < j → i + o.length ≤ j) →
      (∀ i k, occursAt o s i → k < o.length →
        (replaceList o a s).getD (i + k) ' ' = a.getD k ' ') ∧
      (∀ i, (∀ j, occursAt o s j → i < j ∨ j + o.length ≤ i) →
        (replaceList o a s).getD i ' ' = s.getD i ' ') := by
  have hol : 0 < o.length := List.length_pos.mpr hne
  have hoe : o.isEmpty = false := by
    cases o with
    | nil => exact absurd rfl hne
    | cons _ _ => rfl
  suffices hgen : ∀ (n : Nat) (s : List Char), s.length ≤ n →
      (∀ i j, occursAt o s i → occursAt o s j → i < j → i + o.length ≤ j) →
      (∀ i k, occursAt o s i → k < o.length →
        (replaceList o a s).getD (i + k) ' ' = a.getD k ' ') ∧
      (∀ i, (∀ j, occursAt o s j → i < j ∨ j + o.length ≤ i) →
        (replaceList o a s).getD i ' ' = s.getD i ' ') from
    fun s hsep => hgen s.length s le_rfl hsep
  intro n
  induction n with
  | zero =>
    intro s hl _
    have hs : s = [] := List.eq_nil_of_length_eq_zero (Nat.le_zero.mp hl)
    subst hs
    exact ⟨fun i k hocc _ => absurd hocc (not_occursAt_nil o hne i),
      fun i _ => by rw [replaceList_nil]⟩
  | succ n ih =>
    intro s hl hsep
    cases s with
    | nil =>
      exact ⟨fun i k hocc _ => absurd hocc (not_occursAt_nil o hne i),
        fun i _ => by rw [replaceList_nil]⟩
    | cons c cs =>
      have hcc : (c :: cs).length = cs.length + 1 := List.length_cons c cs
      by_cases hb : (o.isPrefixOf (c :: cs) && !o.isEmpty) = true
      · -- the pattern matches at the head: the head span is replaced and the
        -- scan resumes after it
        have hpre : o <+: c :: cs := List.isPrefixOf_iff_prefix.mp (band_left hb)
        have hlo : o.length ≤ cs.length + 1 := by
          have := hpre.length_le
          rwa [hcc] at this
        have h0 : occursAt o (c :: cs) 0 := (occursAt_zero_iff o (c :: cs)).mpr hpre
        have htlen : ((c :: cs).drop o.length).length = cs.length + 1 - o.length := by
          rw [List.length_drop, hcc]
        have htr : ∀ m, occursAt o ((c :: cs).drop o.length) m ↔
            occursAt o (c :: cs) (o.length + m) :=
          fun m => occursAt_drop o (c :: cs) hne o.length m
        have hge : ∀ j, occursAt o (c :: cs) j → j ≠ 0 → o.length ≤ j := by
          intro j hj hj0
          have := hsep 0 j h0 hj (by omega)
          omega
        have hsep2 : ∀ i j, occursAt o ((c :: cs).drop o.length) i →
            occursAt o ((c :: cs).drop o.length) j → i < j → i + o.length ≤ j := by
          intro i j hi hj hij
          have := hsep (o.length + i) (o.length + j) ((htr i).mp hi) ((htr j).mp hj) (by omega)
          omega
        obtain ⟨ihA, ihB⟩ := ih ((c :: cs).drop o.length) (by omega) hsep2
        rw [replaceList_cons, if_pos hb]
        constructor
        · intro i k hocc hk
          by_cases hi0 : i = 0
          · subst hi0
            rw [Nat.zero_add, List.getD_append _ _ _ _ (by omega)]
          · have hile : o.length ≤ i := hge i hocc hi0
            have hocc2 : occursAt o ((c :: cs).drop o.length) (i - o.length) := by
              rw [htr, show o.length + (i - o.length) = i from by omega]
              exact hocc
            rw [List.getD_append_right _ _ _ _ (by omega),
              show i + k - a.length = (i - o.length) + k from by omega]
            exact ihA (i - o.length) k hocc2 hk
        · intro i hout
          have hile : o.length ≤ i := by
            rcases hout 0 h0 with h | h
            · omega
            · omega
          have hout2 : ∀ j, occursAt o ((c :: cs).drop o.length) j →
              (i - o.length) < j ∨ j + o.length ≤ i - o.length := by
            intro j hj
            rcases hout (o.length + j) ((htr j).mp hj) with h | h
            · left
              omega
            · right
              omega
          rw [List.getD_append_right _ _ _ _ (by omega),
            show i - a.length = i - o.length from by rw [hlen],
            ihB (i - o.length) hout2, getD_drop,
            show o.length + (i - o.length) = i from by omega]
      · -- no match at the head: the head byte is copied unchanged
        have hp : o.isPrefixOf (c :: cs) = false := by
          cases hp0 : o.isPrefixOf (c :: cs)
          · rfl
          · exact absurd (by rw [hp0, hoe]; rfl) hb
        have hnpre : ¬ o <+: c :: cs := by
          intro hc
          rw [ List.isPrefixOf_iff_prefix.mpr hc] at hp
          simp at hp
        have h00 : ¬ occursAt o (c :: cs) 0 :=
          fun h0 => hnpre ((occursAt_zero_iff o (c :: cs)).mp h0)
        have htr : ∀ m, occursAt o cs m ↔ occursAt o (c :: cs) (m + 1) :=
          fun m => (occursAt_cons o c cs m).symm
        have hsep2 : ∀ i j, occursAt o cs i → occursAt o cs j → i < j → i + o.length ≤ j := by
          intro i j hi hj hij
          have := hsep (i + 1) (j + 1) ((htr i).mp hi) ((htr j).mp hj) (by omega)
          omega
        obtain ⟨ihA, ihB⟩ := ih cs (by omega) hsep2
        rw [replaceList_cons, if_neg hb]
        constructor
        · intro i k hocc hk
          have hi0 : i ≠ 0 := fun h => h00 (h ▸ hocc)
          have hocc2 : occursAt o cs (i - 1) := by
            rw [htr, show i - 1 + 1 = i from by omega]
            exact hocc
          rw [show i + k = ((i - 1) + k) + 1 from by omega, List.getD_cons_succ]
          exact ihA (i - 1) k hocc2 hk
        · intro i hout
          cases i with
          | zero =>
            rw [List.getD_cons_zero, List.getD_cons_zero]
          | succ m =>
            have hout2 : ∀ j, occursAt o cs j → m < j ∨ j + o.length ≤ m := by
              intro j hj
              rcases hout (j + 1) ((htr j).mp hj) with h | h
              · left
                omega
              · right
                omega
            rw [List.getD_cons_succ, List.getD_cons_succ]
            exact ihB m hout2

/-- Claim C1, counterexample: with the length-preserving registry
[("ab","xy"), ("xa","qq")] and content "xab", the pair applications interfere:
the input occurrence of "xa" at offset 0 is not replaced by "qq" (the first
pair's replacement consumed its second byte), so it is not true for every
registry and content that every literal occurrence of each original is
replaced by its adjusted string. -/
theorem C1_every_occurrence_counterexample :
    ("ab".data).length = ("xy".data).length ∧
    ("xa".data).length = ("qq".data).length ∧
    replace_soname_values [("ab".data, "xy".data), ("xa".data, "qq".data)] ("xab".data)
      = "xxy".data ∧
    occursAt ("xa".data) ("xab".data) 0 ∧
    ¬ occursAt ("qq".data)
      (replace_soname_values [("ab".data, "xy".data), ("xa".data, "qq".data)] ("xab".data)) 0 ∧
    ¬ ("qq".data <:+:
      replace_soname_values [("ab".data, "xy".data), ("xa".data, "qq".data)] ("xab".data)) := by
  decide

/-- Claim C1 (amended): for a single-pair registry whose pattern occurrences
in the content are pairwise non-overlapping, the patcher replaces every
literal occurrence of the original by the adjusted string and alters no other
byte; for every registry whose pairs are all length-preserving the output has
the input's total length; and content containing none of the originals is
returned unchanged. -/
theorem C1_patcher_contract :
    (∀ o a s : List Char, o ≠ [] → o.length = a.length →
      (∀ i, i < s.length → ∀ j, j < s.length →
        occursAt o s i → occursAt o s j → i < j → i + o.length ≤ j) →
      (replace_soname_values [(o, a)] s).length = s.length ∧
      (∀ i k, occursAt o s i → k < o.length →
        (replace_soname_values [(o, a)] s).getD (i + k) ' ' = a.getD k ' ') ∧
      (∀ i, (∀ j, occursAt o s j → i < j ∨ j + o.length ≤ i) →
        (replace_soname_values [(o, a)] s).getD i ' ' = s.getD i ' ')) ∧
    (∀ (reg : List (List Char × List Char)) (s : List Char),
      (∀ p ∈ reg, p.1.length = p.2.length) →
      (replace_soname_values reg s).length = s.length) ∧
    (∀ (reg : List (List Char × List Char)) (s : List Char),
      (∀ p ∈ reg, ¬ p.1 <:+: s) →
      replace_soname_values reg s = s) := by
  refine ⟨?_, ?_, ?_⟩
  · intro o a s hne hlen hsepb
    have hol : 0 < o.length := List.length_pos.mpr hne
    have hsep : ∀ i j, occursAt o s i → occursAt o s j → i < j → i + o.length ≤ j := by
      intro i j hi hj hij
      exact hsepb i (by have := hi.1; omega) j (by have := hj.1; omega) hi hj hij
    have hspec := replaceList_spec o a hne hlen s hsep
    exact ⟨replaceList_length o a hlen s, hspec.1, hspec.2⟩
  · intro reg
    induction reg with
    | nil =>
      intro s _
      rfl
    | cons p ps ih =>
      intro s h
      show (replace_soname_values ps (replaceList p.1 p.2 s)).length = s.length
      rw [ih _ (fun q hq => h q (List.mem_cons_of_mem p hq)),
        replaceList_length p.1 p.2 (h p (List.mem_cons_self p ps)) s]
  · intro reg s
    induction reg with
    | nil =>
      intro _
      rfl
    | cons p ps ih =>
      intro h
      show replace_soname_values ps (replaceList p.1 p.2 s) = s
      rw [replaceList_absent p.1 p.2 s (h p (List.mem_cons_self p ps))]
      exact ih (fun q hq => h q (List.mem_cons_of_mem p hq))

theorem C1_patcher_contract_witness :
    (replace_soname_values [("libfoo.so.1".data, "libfoo_1.so".data)]
        ("AAlibfoo.so.1BBlibfoo.so.1".data)).length
      = ("AAlibfoo.so.1BBlibfoo.so.1".data).length ∧
    (replace_soname_values [("libfoo.so.1".data, "libfoo_1.so".data)]
        ("AAlibfoo.so.1BBlibfoo.so.1".data)).getD (2 + 0) ' '
      = ("libfoo_1.so".data).getD 0 ' ' ∧
    (replace_soname_values [("libfoo.so.1".data, "libfoo_1.so".data)]
        ("AAlibfoo.so.1BBlibfoo.so.1".data)).getD 0 ' '
      = ("AAlibfoo.so.1BBlibfoo.so.1".data).getD 0 ' ' ∧
    (replace_soname_values [("ab".data, "xy".data), ("xa".data, "qq".data)]
        ("hello".data)).length = ("hello".data).length ∧
    replace_soname_values [("ab".data, "xy".data), ("xa".data, "qq".data)] ("hello".data)
      = "hello".data := by
  have h1 := C1_patcher_contract.1 ("libfoo.so.1".data) ("libfoo_1.so".data)
    ("AAlibfoo.so.1BBlibfoo.so.1".data) (by decide) (by decide) (by decide)
  refine ⟨h1.1, h1.2.1 2 0 (by decide) (by decide), h1.2.2 0 ?_,
    C1_patcher_contract.2.1 [("ab".data, "xy".data), ("xa".data, "qq".data)]
      ("hello".data) (by decide),
    C1_patcher_contract.2.2 [("ab".data, "xy".data), ("xa".data, "qq".data)]
      ("hello".data) (by decide)⟩
  intro j hj
  cases j with
  | zero => exact absurd hj (by decide)
  | succ m =>
    left
    omega

/-- An occurrence is equivalent to a pointwise description through getD. -/
theorem occursAt_iff_getD (o s : List Char) (hne : o ≠ []) (i : Nat) :
    occursAt o s i ↔
      i + o.length ≤ s.length ∧ ∀ k, k < o.length → s.getD (i + k) ' ' = o.getD k ' ' := by
  have hol : 0 < o.length := List.length_pos.mpr hne
  constructor
  · rintro ⟨h1, h2⟩
    refine ⟨h1, fun k hk => ?_⟩
    have hkt : k < ((s.drop i).take o.length).length := by
      rw [List.length_take, List.length_drop]
      omega
    have hks : i + k < s.length := by omega
    have e2 : ((s.drop i).take o.length).getD k ' ' = s.getD (i + k) ' ' := by
      rw [List.getD_eq_getElem _ _ hkt, List.getD_eq_getElem _ _ hks,
        List.getElem_take, List.getElem_drop]
    have e3 : ((s.drop i).take o.length).getD k ' ' = o.getD k ' ' := by
      rw [h2]
    exact e2.symm.trans e3
  · rintro ⟨h1, h2⟩
    refine ⟨h1, ?_⟩
    apply List.ext_getElem
    · rw [List.length_take, List.length_drop]
      omega
    · intro k hk1 hk2
      have hkl : k < o.length := hk2
      have hks : i + k < s.length := by omega
      rw [List.getElem_take, List.getElem_drop]
      have := h2 k hkl
      rwa [List.getD_eq_getElem _ _ hks, List.getD_eq_getElem _ _ hk2] at this

/-- Two lists of equal length agreeing at every position through getD are
equal. -/
theorem eq_of_getD (l1 l2 : List Char) (hlen : l1.length = l2.length)
    (h : ∀ p, l1.getD p ' ' = l2.getD p ' ') : l1 = l2 := by
  apply List.ext_getElem hlen
  intro i h1 h2
  have := h i
  rwa [List.getD_eq_getElem _ _ h1, List.getD_eq_getElem _ _ h2] at this

/-- Two byte.replace passes commute when the two patterns' occurrences in the
content are pairwise non-overlapping (each with itself and across the two) and
neither pass creates a new occurrence of the other pattern. -/
theorem replaceList_comm (o1 a1 o2 a2 : List Char)
    (h1ne : o1 ≠ []) (h2ne : o2 ≠ [])
    (h1len : o1.length = a1.length) (h2len : o2.length = a2.length)
    (s : List Char)
    (hsep1 : ∀ i j, occursAt o1 s i → occursAt o1 s j → i < j → i + o1.length ≤ j)
    (hsep2 : ∀ i j, occursAt o2 s i → occursAt o2 s j → i < j → i + o2.length ≤ j)
    (hcross : ∀ i j, occursAt o1 s i → occursAt o2 s j →
      i + o1.length ≤ j ∨ j + o2.length ≤ i)
    (hnew1 : ∀ i, occursAt o2 (replaceList o1 a1 s) i → occursAt o2 s i)
    (hnew2 : ∀ i, occursAt o1 (replaceList o2 a2 s) i → occursAt o1 s i) :
    replaceList o2 a2 (replaceList o1 a1 s) = replaceList o1 a1 (replaceList o2 a2 s) := by
  have hL1 : (replaceList o1 a1 s).length = s.length := replaceList_length o1 a1 h1len s
  have hL2 : (replaceList o2 a2 s).length = s.length := replaceList_length o2 a2 h2len s
  obtain ⟨hA1, hB1⟩ := replaceList_spec o1 a1 h1ne h1len s hsep1
  obtain ⟨hA2, hB2⟩ := replaceList_spec o2 a2 h2ne h2len s hsep2
  -- occurrences of each pattern survive the other pattern's pass unchanged
  have hpres2 : ∀ j, occursAt o2 (replaceList o1 a1 s) j ↔ occursAt o2 s j := by
    intro j
    refine ⟨hnew1 j, fun hocc => ?_⟩
    rw [occursAt_iff_getD o2 _ h2ne]
    refine ⟨by rw [hL1]; exact hocc.1, fun k hk => ?_⟩
    have houtk : ∀ j1, occursAt o1 s j1 → (j + k) < j1 ∨ j1 + o1.length ≤ j + k := by
      intro j1 hj1
      rcases hcross j1 j hj1 hocc with h | h
      · right
        omega
      · left
        omega
    rw [hB1 (j + k) houtk]
    exact ((occursAt_iff_getD o2 s h2ne j).mp hocc).2 k hk
  have hpres1 : ∀ j, occursAt o1 (replaceList o2 a2 s) j ↔ occursAt o1 s j := by
    intro j
    refine ⟨hnew2 j, fun hocc => ?_⟩
    rw [occursAt_iff_getD o1 _ h1ne]
    refine ⟨by rw [hL2]; exact hocc.1, fun k hk => ?_⟩
    have houtk : ∀ j1, occursAt o2 s j1 → (j + k) < j1 ∨ j1 + o2.length ≤ j + k := by
      intro j1 hj1
      rcases hcross j j1 hocc hj1 with h | h
      · left
        omega
      · right
        omega
    rw [hB2 (j + k) houtk]
    exact ((occursAt_iff_getD o1 s h1ne j).mp hocc).2 k hk
  have hsep2R : ∀ i j, occursAt o2 (replaceList o1 a1 s) i →
      occursAt o2 (replaceList o1 a1 s) j → i < j → i + o2.length ≤ j := by
    intro i j hi hj hij
    exact hsep2 i j ((hpres2 i).mp hi) ((hpres2 j).mp hj) hij
  have hsep1R : ∀ i j, occursAt o1 (replaceList o2 a2 s) i →
      occursAt o1 (replaceList o2 a2 s) j → i < j → i + o1.length ≤ j := by
    intro i j hi hj hij
    exact hsep1 i j ((hpres1 i).mp hi) ((hpres1 j).mp hj) hij
  obtain ⟨hA2R, hB2R⟩ := replaceList_spec o2 a2 h2ne h2len (replaceList o1 a1 s) hsep2R
  obtain ⟨hA1R, hB1R⟩ := replaceList_spec o1 a1 h1ne h1len (replaceList o2 a2 s) hsep1R
  apply eq_of_getD
  · rw [replaceList_length o2 a2 h2len (replaceList o1 a1 s),
      replaceList_length o1 a1 h1len (replaceList o2 a2 s), hL1, hL2]
  · intro p
    by_cases hc2 : ∃ j, occursAt o2 s j ∧ j ≤ p ∧ p < j + o2.length
    · -- p lies in an occurrence span of o2: both sides carry a2 there
      obtain ⟨j, hocc, hjp, hpj⟩ := hc2
      have hk : p - j < o2.length := by omega
      have hout1 : ∀ j1, occursAt o1 (replaceList o2 a2 s) j1 →
          p < j1 ∨ j1 + o1.length ≤ p := by
        intro j1 hj1
        rcases hcross j1 j ((hpres1 j1).mp hj1) hocc with h | h
        · right
          omega
        · left
          omega
      have hL : (replaceList o2 a2 (replaceList o1 a1 s)).getD p ' ' = a2.getD (p - j) ' ' := by
        have := hA2R j (p - j) ((hpres2 j).mpr hocc) hk
        rwa [show j + (p - j) = p from by omega] at this
      have hR : (replaceList o1 a1 (replaceList o2 a2 s)).getD p ' ' = a2.getD (p - j) ' ' := by
        rw [hB1R p hout1]
        have := hA2 j (p - j) hocc hk
        rwa [show j + (p - j) = p from by omega] at this
      rw [hL, hR]
    · by_cases hc1 : ∃ j, occursAt o1 s j ∧ j ≤ p ∧ p < j + o1.length
      · -- p lies in an occurrence span of o1: both sides carry a1 there
        obtain ⟨j, hocc, hjp, hpj⟩ := hc1
        have hk : p - j < o1.length := by omega
        have hout2 : ∀ j1, occursAt o2 (replaceList o1 a1 s) j1 →
            p < j1 ∨ j1 + o2.length ≤ p := by
          intro j1 hj1
          rcases hcross j j1 hocc ((hpres2 j1).mp hj1) with h | h
          · left
            omega
          · right
            omega
        have hL : (replaceList o2 a2 (replaceList o1 a1 s)).getD p ' '
            = a1.getD (p - j) ' ' := by
          rw [hB2R p hout2]
          have := hA1 j (p - j) hocc hk
          rwa [show j + (p - j) = p from by omega] at this
        have hR : (replaceList o1 a1 (replaceList o2 a2 s)).getD p ' '
            = a1.getD (p - j) ' ' := by
          have := hA1R j (p - j) ((hpres1 j).mpr hocc) hk
          rwa [show j + (p - j) = p from by omega] at this
        rw [hL, hR]
      · -- p lies outside every occurrence span: both sides keep the original
        -- byte of s
        have hout2 : ∀ j1, occursAt o2 (replaceList o1 a1 s) j1 →
            p < j1 ∨ j1 + o2.length ≤ p := by
          intro j1 hj1
          by_contra hcon
          push_neg at hcon
          exact hc2 ⟨j1, (hpres2 j1).mp hj1, by omega, by omega⟩
        have hout1 : ∀ j1, occursAt o1 (replaceList o2 a2 s) j1 →
            p < j1 ∨ j1 + o1.length ≤ p := by
          intro j1 hj1
          by_contra hcon
          push_neg at hcon
          exact hc1 ⟨j1, (hpres1 j1).mp hj1, by omega, by omega⟩
        have houts2 : ∀ j1, occursAt o2 s j1 → p < j1 ∨ j1 + o2.length ≤ p := by
          intro j1 hj1
          by_contra hcon
          push_neg at hcon
          exact hc2 ⟨j1, hj1, by omega, by omega⟩
        have houts1 : ∀ j1, occursAt o1 s j1 → p < j1 ∨ j1 + o1.length ≤ p := by
          intro j1 hj1
          by_contra hcon
          push_neg at hcon
          exact hc1 ⟨j1, hj1, by omega, by omega⟩
        rw [hB2R p hout2, hB1R p hout1, hB1 p houts1, hB2 p houts2]

/-- Claim C10, counterexample: the registry [("ab","xy"), ("bc","qq")]
satisfies the claim's hypothesis (no pair's adjusted value re-matches — that
is, contains as a substring — the other pair's original), yet on the content
"abc", whose two original occurrences overlap each other, the two application
orders produce different outputs. -/
theorem C10_order_counterexample :
    ¬ ("ab".data <:+: "qq".data) ∧
    ¬ ("bc".data <:+: "xy".data) ∧
    ¬ ("ab".data <:+: "xy".data) ∧
    ¬ ("bc".data <:+: "qq".data) ∧
    ("ab".data).length = ("xy".data).length ∧
    ("bc".data).length = ("qq".data).length ∧
    replace_soname_values [("ab".data, "xy".data), ("bc".data, "qq".data)] ("abc".data)
      = "xyc".data ∧
    replace_soname_values [("bc".data, "qq".data), ("ab".data, "xy".data)] ("abc".data)
      = "aqq".data ∧
    ("xyc".data : List Char) ≠ "aqq".data := by
  decide

/-- Claim C10 (amended): for a two-pair registry, the two application orders
of the patcher produce identical output bytes provided the pairs are
length-preserving with non-empty originals, the originals' occurrences in the
content are pairwise non-overlapping (each pattern with itself and the two
patterns with each other), and neither pair's replacement pass creates a new
occurrence of the other pair's original. -/
theorem C10_order_independence (o1 a1 o2 a2 s : List Char)
    (h1ne : o1 ≠ []) (h2ne : o2 ≠ [])
    (h1len : o1.length = a1.length) (h2len : o2.length = a2.length)
    (hsep1 : ∀ i, i < s.length → ∀ j, j < s.length →
      occursAt o1 s i → occursAt o1 s j → i < j → i + o1.length ≤ j)
    (hsep2 : ∀ i, i < s.length → ∀ j, j < s.length →
      occursAt o2 s i → occursAt o2 s j → i < j → i + o2.length ≤ j)
    (hcross : ∀ i, i < s.length → ∀ j, j < s.length →
      occursAt o1 s i → occursAt o2 s j → i + o1.length ≤ j ∨ j + o2.length ≤ i)
    (hnew1 : ∀ i, i < s.length →
      occursAt o2 (replace_soname_values [(o1, a1)] s) i → occursAt o2 s i)
    (hnew2 : ∀ i, i < s.length →
      occursAt o1 (replace_soname_values [(o2, a2)] s) i → occursAt o1 s i) :
    replace_soname_values [(o1, a1), (o2, a2)] s
      = replace_soname_values [(o2, a2), (o1, a1)] s := by
  have hol1 : 0 < o1.length := List.length_pos.mpr h1ne
  have hol2 : 0 < o2.length := List.length_pos.mpr h2ne
  have hL1 : (replaceList o1 a1 s).length = s.length := replaceList_length o1 a1 h1len s
  have hL2 : (replaceList o2 a2 s).length = s.length := replaceList_length o2 a2 h2len s
  exact replaceList_comm o1 a1 o2 a2 h1ne h2ne h1len h2len s
    (fun i j hi hj hij => hsep1 i (by have := hi.1; omega) j (by have := hj.1; omega) hi hj hij)
    (fun i j hi hj hij => hsep2 i (by have := hi.1; omega) j (by have := hj.1; omega) hi hj hij)
    (fun i j hi hj => hcross i (by have := hi.1; omega) j (by have := hj.1; omega) hi hj)
    (fun i hi => hnew1 i (by have := hi.1; rw [hL1] at this; omega) hi)
    (fun i hi => hnew2 i (by have := hi.1; rw [hL2] at this; omega) hi)

theorem C10_order_independence_witness :
    replace_soname_values [("ab".data, "xy".data), ("cd".data, "zw".data)] ("abZcd".data)
      = replace_soname_values [("cd".data, "zw".data), ("ab".data, "xy".data)] ("abZcd".data) :=
  C10_order_independence ("ab".data) ("xy".data) ("cd".data) ("zw".data) ("abZcd".data)
    (by decide) (by decide) (by decide) (by decide) (by decide) (by decide) (by decide)
    (by decide) (by decide)

/-!  The Rename Registry.  __soname_replacements starts from one seeded pair
(the libnettle entry, not retrievable from the packaged library) and grows
inside the first loop of __copy_libs. -/

def soname_replacements_init : List (List Char × List Char) :=
  [("libnettle.so.6".data, "libnettle_6.so".data)]

/-- Fold threading the Python control flow: the first raised exception aborts
the remaining iterations. -/
def foldSt {σ α : Type} (f : σ → α → PyResult σ) : σ → List α → PyResult σ
  | st, [] => .ok st
  | st, x :: xs =>
    match f st x with
    | .ok st2 => foldSt f st2 xs
    | .exn e => .exn e

/-- One registration step of the first loop of __copy_libs: compute the
adjusted soname and append the pair to __soname_replacements when the name
changed.  When __adjust_soname raises, the run aborts; when it returns None,
the Python appends (soname, None) and then immediately crashes with TypeError
at the copy destination os.path.join(lib_dir, None), so the entry never
survives — this model raises without recording it. -/
def register (reg : List (List Char × List Char)) (soname : List Char) :
    PyResult (List (List Char × List Char)) :=
  match adjust_soname soname with
  | .exn e => .exn e
  | .ok none => .exn .typeError
  | .ok (some adjusted) =>
    .ok (if adjusted ≠ soname then reg ++ [(soname, adjusted)] else reg)

/-- Claim C5, counterexample: registering a soname whose pair is already
present appends a second copy of the pair — there is no presence check and no
ConflictingRenameError in the code, so the claim that register inserts only
when the original is absent (and otherwise fails) is false. -/
theorem C5_register_counterexample :
    register soname_replacements_init ("libnettle.so.6".data)
      = .ok (soname_replacements_init ++
          [("libnettle.so.6".data, "libnettle_6.so".data)]) ∧
    (soname_replacements_init ++
      [("libnettle.so.6".data, "libnettle_6.so".data)]).length = 2 ∧
    soname_replacements_init ++ [("libnettle.so.6".data, "libnettle_6.so".data)]
      ≠ soname_replacements_init := by decide

/-- Claim C5 (amended): registration appends unconditionally (no presence
check, never a conflict failure); nonetheless, within one run the same
original is never mapped to two different adjusted names, because every
recorded pair's adjusted name is computed from its original by the
deterministic naming transform, and the seeded libnettle pair agrees with the
transform. -/
theorem C5_registry_never_conflicts :
    ∀ (reg0 : List (List Char × List Char)) (sonames : List (List Char))
      (reg1 : List (List Char × List Char)),
      (∀ p ∈ reg0, adjust_soname p.1 = .ok (some p.2)) →
      foldSt register reg0 sonames = .ok reg1 →
      ∀ p ∈ reg1, ∀ q ∈ reg1, p.1 = q.1 → p.2 = q.2 := by
  have hinv : ∀ (sonames : List (List Char)) (reg0 reg1 : List (List Char × List Char)),
      (∀ p ∈ reg0, adjust_soname p.1 = .ok (some p.2)) →
      foldSt register reg0 sonames = .ok reg1 →
      ∀ p ∈ reg1, adjust_soname p.1 = .ok (some p.2) := by
    intro sonames
    induction sonames with
    | nil =>
      intro reg0 reg1 h0 hf
      simp only [foldSt, PyResult.ok.injEq] at hf
      rw [← hf]
      exact h0
    | cons x xs ih =>
      intro reg0 reg1 h0 hf
      simp only [foldSt] at hf
      cases hr : register reg0 x with
      | exn e =>
        rw [hr] at hf
        exact absurd hf (by simp)
      | ok reg2 =>
        rw [hr] at hf
        refine ih reg2 reg1 ?_ hf
        cases ha : adjust_soname x with
        | exn e =>
          rw [register, ha] at hr
          exact absurd hr (by simp)
        | ok adjOpt =>
          cases adjOpt with
          | none =>
            rw [register, ha] at hr
            exact absurd hr (by simp)
          | some adjusted =>
            rw [register, ha] at hr
            simp only [PyResult.ok.injEq] at hr
            intro p hp
            rw [← hr] at hp
            by_cases hne : adjusted ≠ x
            · rw [if_pos hne] at hp
              rcases List.mem_append.mp hp with hp0 | hp1
              · exact h0 p hp0
              · have : p = (x, adjusted) := by simpa using hp1
                rw [this]
                exact ha
            · rw [if_neg hne] at hp
              exact h0 p hp
  intro reg0 sonames reg1 h0 hf p hp q hq hpq
  have h1 := hinv sonames reg0 reg1 h0 hf p hp
  have h2 := hinv sonames reg0 reg1 h0 hf q hq
  rw [hpq] at h1
  have := h1.symm.trans h2
  simpa using this

theorem C5_registry_never_conflicts_witness :
    (("libnettle.so.6".data, "libnettle_6.so".data) : List Char × List Char).2
      = (("libnettle.so.6".data, "libnettle_6.so".data) : List Char × List Char).2 :=
  C5_registry_never_conflicts soname_replacements_init
    [("libfoo.so.1".data), ("libnettle.so.6".data), ("libbar.so".data)]
    [("libnettle.so.6".data, "libnettle_6.so".data),
     ("libfoo.so.1".data, "libfoo_1.so".data),
     ("libnettle.so.6".data, "libnettle_6.so".data)]
    (by decide) (by decide)
    (("libnettle.so.6".data, "libnettle_6.so".data)) (by decide)
    (("libnettle.so.6".data, "libnettle_6.so".data)) (by decide) (by decide)

/-!  Orchestration: Bootstrap.__copy_libs, modelled on the (soname, contents)
data of the library files for the default install path (install_list None). -/

structure LibFile where
  soname : List Char
  contents : List Char
deriving DecidableEq

/-- Pass 1 of __copy_libs: the loop over all library files that reads each
soname through __read_elf and grows __soname_replacements via the
registration step (each file is also copied, byte-identical, to its adjusted
name in the destination directory). -/
def build_registry (reg0 : List (List Char × List Char)) (libs : List LibFile) :
    PyResult (List (List Char × List Char)) :=
  foldSt register reg0 (libs.map LibFile.soname)

/-- The destination file name of a library whose registration succeeded (the
fallback arm is unreachable on the success path of build_registry). -/
def adjusted_name (soname : List Char) : List Char :=
  match adjust_soname soname with
  | .ok (some adjusted) => adjusted
  | _ => soname

/-- Bootstrap.__copy_libs: pass 1 builds the registry over all N files while
copying each file under its adjusted name; pass 2 asserts
len(original) == len(adjusted) for every registered pair; pass 3 rewrites
every copied file's bytes with the completed registry.  (The patchelf-based
gstreamer NEEDED consolidation run after each rewrite is an external tool
invocation outside this model.) -/
def copy_libs (reg0 : List (List Char × List Char)) (libs : List LibFile) :
    PyResult (List (List Char × List Char)) :=
  match build_registry reg0 libs with
  | .exn e => .exn e
  | .ok reg =>
    if ∀ p ∈ reg, p.1.length = p.2.length then
      .ok (libs.map (fun lib => (adjusted_name lib.soname,
        replace_soname_values reg lib.contents)))
    else .exn .assertionError

/-- Claim C6: no library's bytes are patched before the registry is complete
over all N artifacts and every pair has passed the length check: a failed
length check makes the run abort with the assertion error and produce no
patched content at all, and any successful run patches every file with the
registry built from all N files (so an early file's content is rewritten
using renames contributed by later files). -/
theorem C6_no_patch_before_full_registry :
    ∀ (reg0 : List (List Char × List Char)) (libs : List LibFile),
      (∀ reg, build_registry reg0 libs = .ok reg →
        ¬ (∀ p ∈ reg, p.1.length = p.2.length) →
        copy_libs reg0 libs = .exn .assertionError) ∧
      (∀ out, copy_libs reg0 libs = .ok out →
        ∃ reg, build_registry reg0 libs = .ok reg ∧
          (∀ p ∈ reg, p.1.length = p.2.length) ∧
          out = libs.map (fun lib => (adjusted_name lib.soname,
            replace_soname_values reg lib.contents))) := by
  intro reg0 libs
  constructor
  · intro reg hreg hbad
    simp only [copy_libs, hreg]
    rw [if_neg hbad]
  · intro out hout
    simp only [copy_libs] at hout
    split at hout
    next e heq =>
      exact absurd hout (by simp)
    next reg heq =>
      by_cases hlen : ∀ p ∈ reg, p.1.length = p.2.length
      · rw [if_pos hlen] at hout
        simp only [PyResult.ok.injEq] at hout
        exact ⟨reg, heq, hlen, hout.symm⟩
      · rw [if_neg hlen] at hout
        exact absurd hout (by simp)

theorem C6_no_patch_before_full_registry_witness :
    copy_libs [("ab".data, "xyz".data)] [] = .exn .assertionError :=
  (C6_no_patch_before_full_registry [("ab".data, "xyz".data)] []).1
    [("ab".data, "xyz".data)] (by decide) (by decide)

/- A successful run for illustration: the first file's contents mention the
second file's soname, and the patched output of the first file uses the
rename contributed by the second file. -/
example :
    copy_libs soname_replacements_init
      [⟨"libx.so".data, "needs libfoo.so.1 !".data⟩,
       ⟨"libfoo.so.1".data, "body".data⟩]
      = .ok [("libx.so".data, "needs libfoo_1.so !".data),
             ("libfoo_1.so".data, "body".data)] := by decide

/-!  The Dependency Closure Verifier: Bootstrap.__resolve_deps.  Each library
in the final directory contributes its SONAME and its NEEDED list, read back
through __read_elf; the report is printed and nothing is returned. -/

/-- The fixed always-required seed set Bootstrap.__base_needed. -/
def base_needed : Finset (List Char) := {"libWPEWebKit-1.0_3.so".data}

/-- Bootstrap.__resolve_deps on the (soname, needed-list) metadata of the
library files: soname_set collects every SONAME, needed_set starts from the
seed set and absorbs every NEEDED list, and the report is the pair of set
differences (missing, extra) printed to stdout.  The Python single loop
updates both accumulators; the two folds are that same loop split by
accumulator. -/
def resolve_deps (baseNeeded : Finset (List Char))
    (libs : List (List Char × List (List Char))) :
    Finset (List Char) × Finset (List Char) :=
  let sonameSet := libs.foldl (fun acc l => acc ∪ {l.1}) ∅
  let neededSet := libs.foldl (fun acc l => acc ∪ l.2.toFinset) baseNeeded
  (neededSet \ sonameSet, sonameSet \ neededSet)

theorem foldl_soname_set (libs : List (List Char × List (List Char)))
    (acc : Finset (List Char)) :
    libs.foldl (fun acc l => acc ∪ {l.1}) acc = acc ∪ (libs.map Prod.fst).toFinset := by
  induction libs generalizing acc with
  | nil => simp
  | cons l ls ih =>
    rw [List.foldl_cons, ih, List.map_cons, List.toFinset_cons, Finset.insert_eq,
      ← Finset.union_assoc]

theorem foldl_needed_set (libs : List (List Char × List (List Char)))
    (acc : Finset (List Char)) :
    libs.foldl (fun acc l => acc ∪ l.2.toFinset) acc
      = acc ∪ ((libs.map Prod.snd).flatten).toFinset := by
  induction libs generalizing acc with
  | nil => simp
  | cons l ls ih =>
    rw [List.foldl_cons, ih, List.map_cons, List.flatten_cons, List.toFinset_append,
      ← Finset.union_assoc]

/-- Claim C7: the verifier reports missing = (seed ∪ union of NEEDED lists)
minus the SONAME set, and extra = the SONAME set minus (seed ∪ union of
NEEDED lists); with soname set containing libA.so and NEEDED input containing
libA.so and libB.so it reports missing containing only libB.so and empty
extra. -/
theorem C7_resolve_deps_report :
    (∀ (baseNeeded : Finset (List Char)) (libs : List (List Char × List (List Char))),
      resolve_deps baseNeeded libs =
        ((baseNeeded ∪ ((libs.map Prod.snd).flatten).toFinset)
            \ (libs.map Prod.fst).toFinset,
         (libs.map Prod.fst).toFinset
            \ (baseNeeded ∪ ((libs.map Prod.snd).flatten).toFinset))) ∧
    resolve_deps ∅ [("libA.so".data, ["libA.so".data, "libB.so".data])]
      = ({"libB.so".data}, ∅) := by
  constructor
  · intro baseNeeded libs
    unfold resolve_deps
    rw [foldl_soname_set, foldl_needed_set, Finset.empty_union]
  · decide

/-- Bootstrap.__resolve_deps with its hidden state effect made explicit: in
the Python, needed_set = self.__base_needed binds the very set object stored
on the instance and needed_set.update(...) grows it in place.  Returned here:
the printed report together with the final value of self.__base_needed. -/
def resolve_deps_state (baseNeeded : Finset (List Char))
    (libs : List (List Char × List (List Char))) :
    (Finset (List Char) × Finset (List Char)) × Finset (List Char) :=
  let sonameSet := libs.foldl (fun acc l => acc ∪ {l.1}) ∅
  let neededSet := libs.foldl (fun acc l => acc ∪ l.2.toFinset) baseNeeded
  ((neededSet \ sonameSet, sonameSet \ neededSet), neededSet)

/-- Claim C8, code bug: the verifier is not state-preserving.  Because
needed_set aliases self.__base_needed and set.update mutates in place,
running __resolve_deps over a library with a NEEDED entry outside the seed
set leaves __base_needed permanently grown: here it ends as the two-element
set rather than the seeded singleton. -/
theorem C8_base_needed_mutated :
    (resolve_deps_state base_needed [("libA.so".data, ["libB.so".data])]).2
      = ({"libWPEWebKit-1.0_3.so".data, "libB.so".data} : Finset (List Char)) ∧
    (resolve_deps_state base_needed [("libA.so".data, ["libB.so".data])]).2
      ≠ base_needed := by decide

/-!  The ELF Metadata Reader: Bootstrap.__read_elf.  It runs readelf -d,
decodes stdout, and matches every line against the two anchored patterns
  ^ 0x[0-9a-f]+ \(NEEDED\)\s+Shared library: \[(.+)\]$
  ^ 0x[0-9a-f]+ \(SONAME\)\s+Library soname: \[(.+)\]$
The matcher below is the regex made deterministic: the hex run and the
whitespace run are maximal munches (the character that must follow each —
a space, then a non-blank letter — can never extend them, so the regex
engine's backtracking is irrelevant there), and the greedy (.+) anchored by
the final bracket captures everything up to the last "]", which must be
non-empty.  Lines come from splitlines, hence contain no newline, so "."
matching any-but-newline is any character. -/

def isHexDigitLower (c : Char) : Bool :=
  (decide ('0' ≤ c) && decide (c ≤ '9')) || (decide ('a' ≤ c) && decide (c ≤ 'f'))

/-- The characters Python's regex \s matches in ASCII text. -/
def isPySpace (c : Char) : Bool :=
  c == ' ' || c == '\t' || c == '\n' || c == '\x0b' || c == '\x0c' || c == '\r'

/-- Consume at least one character satisfying p, maximally. -/
def dropWhile1 (p : Char → Bool) : List Char → Option (List Char)
  | [] => none
  | c :: cs => if p c then some (cs.dropWhile p) else none

/-- Consume the literal segment pre. -/
def stripSeg (pre l : List Char) : Option (List Char) :=
  if pre.isPrefixOf l then some (l.drop pre.length) else none

def matchDynLine (marker label line : List Char) : Option (List Char) :=
  match stripSeg (" 0x".data) line with
  | none => none
  | some r1 =>
    match dropWhile1 isHexDigitLower r1 with
    | none => none
    | some r2 =>
      match stripSeg (' ' :: '(' :: (marker ++ [')'])) r2 with
      | none => none
      | some r3 =>
        match dropWhile1 isPySpace r3 with
        | none => none
        | some r4 =>
          match stripSeg label r4 with
          | none => none
          | some r5 =>
            if r5.getLast? == some ']' && decide (2 ≤ r5.length) then some r5.dropLast
            else none

def soname_line (line : List Char) : Option (List Char) :=
  matchDynLine ("SONAME".data) ("Library soname: [".data) line

def needed_line (line : List Char) : Option (List Char) :=
  matchDynLine ("NEEDED".data) ("Shared library: [".data) line

/-- The body of the line loop of __read_elf: try the NEEDED pattern first and
append to needed_list, then the SONAME pattern and append to soname_list. -/
def read_elf_step (acc : List (List Char) × List (List Char)) (line : List Char) :
    List (List Char) × List (List Char) :=
  let acc1 := match needed_line line with
    | some n => (acc.1, acc.2 ++ [n])
    | none => acc
  match soname_line line with
  | some s => (acc1.1 ++ [s], acc1.2)
  | none => acc1

/-- Bootstrap.__read_elf on the decoded readelf output lines: collect the
SONAME and NEEDED entries in encountered order, assert that exactly one
SONAME was found, and return it with the NEEDED list. -/
def read_elf (lines : List (List Char)) : PyResult (List Char × List (List Char)) :=
  let acc := lines.foldl read_elf_step ([], [])
  match acc.1 with
  | [s] => .ok (s, acc.2)
  | _ => .exn .assertionError

theorem read_elf_foldl (lines : List (List Char)) (as bs : List (List Char)) :
    lines.foldl read_elf_step (as, bs)
      = (as ++ lines.filterMap soname_line, bs ++ lines.filterMap needed_line) := by
  induction lines generalizing as bs with
  | nil => simp
  | cons l ls ih =>
    simp only [List.foldl_cons, List.filterMap_cons]
    cases hn : needed_line l <;> cases hs : soname_line l <;>
      simp only [read_elf_step, hn, hs] <;> rw [ih] <;> simp

example :
    read_elf
      [(" 0x0000000000000001 (NEEDED)                     Shared library: [libA.so]".data),
       ("garbage".data),
       (" 0x000000000000000e (SONAME)                     Library soname: [libX.so.3]".data),
       (" 0x0000000000000001 (NEEDED)                     Shared library: [libA.so]".data)]
      = .ok ("libX.so.3".data, ["libA.so".data, "libA.so".data]) := by decide

/-- Claim C9: the reader returns the single SONAME with the NEEDED names in
encountered order, duplicates preserved, and fails with the assertion error
exactly when the dump contains zero or more than one SONAME line; lines
matching neither pattern are ignored.  The concrete conjuncts run the parser
on realistic dump lines, one of them with a duplicated NEEDED entry. -/
theorem C9_read_elf_contract :
    (∀ (lines : List (List Char)) (s : List Char) (ns : List (List Char)),
      read_elf lines = .ok (s, ns) ↔
        lines.filterMap soname_line = [s] ∧ ns = lines.filterMap needed_line) ∧
    (∀ lines : List (List Char),
      read_elf lines = .exn .assertionError ↔
        (lines.filterMap soname_line).length ≠ 1) ∧
    read_elf
      [(" 0x0000000000000001 (NEEDED)                     Shared library: [libA.so]".data),
       ("garbage".data),
       (" 0x000000000000000e (SONAME)                     Library soname: [libX.so.3]".data),
       (" 0x0000000000000001 (NEEDED)                     Shared library: [libA.so]".data)]
      = .ok ("libX.so.3".data, ["libA.so".data, "libA.so".data]) ∧
    read_elf [("nothing here".data)] = .exn .assertionError ∧
    read_elf [(" 0x000000000000000e (SONAME) Library soname: [libX.so]".data),
      (" 0x000000000000000e (SONAME) Library soname: [libY.so]".data)]
      = .exn .assertionError := by
  refine ⟨?_, ?_, by decide, by decide, by decide⟩
  · intro lines s ns
    have hfold : lines.foldl read_elf_step ([], [])
        = (lines.filterMap soname_line, lines.filterMap needed_line) := by
      have := read_elf_foldl lines [] []
      simpa using this
    constructor
    · intro h
      simp only [read_elf, hfold] at h
      cases hs : lines.filterMap soname_line with
      | nil =>
        rw [hs] at h
        exact absurd h (by simp)
      | cons s1 rest =>
        cases rest with
        | nil =>
          rw [hs] at h
          simp only [PyResult.ok.injEq, Prod.mk.injEq] at h
          exact ⟨by rw [h.1], h.2.symm⟩
        | cons s2 rest2 =>
          rw [hs] at h
          exact absurd h (by simp)
    · rintro ⟨h1, h2⟩
      simp only [read_elf, hfold, h1, h2]
  · intro lines
    have hfold : lines.foldl read_elf_step ([], [])
        = (lines.filterMap soname_line, lines.filterMap needed_line) := by
      have := read_elf_foldl lines [] []
      simpa using this
    simp only [read_elf, hfold]
    cases hs : lines.filterMap soname_line with
    | nil => simp
    | cons s1 rest =>
      cases rest with
      | nil => simp
      | cons s2 rest2 => simp

theorem C9_read_elf_contract_witness :
    read_elf [(" 0x1 (SONAME) Library soname: [libQ.so]".data)]
      = .ok ("libQ.so".data, []) :=
  (C9_read_elf_contract.1 [(" 0x1 (SONAME) Library soname: [libQ.so]".data)]
    ("libQ.so".data) []).mpr ⟨by decide, by decide⟩

end WpeBootstrap
